import Mathlib

/-!
Verification of the event-extraction core of the `timeline` repository.

The Python source is shallowly embedded: pure functions become Lean
functions over `List Char` / `String`; the stateful retry loop becomes an
explicit driver over an attempt sequence; exceptions become `Except`
values carrying the exact message strings the code builds.  Python's
floor division `//` and modulo `%` are rendered with `Int.ediv` /
`Int.emod` (which agree with Python for positive divisors).
-/

set_option autoImplicit false

/-- The backtick character (code point 96), used by the fenced-code markers. -/
def backtick : Char := Char.ofNat 96

/-- The opening-brace character (code point 123), used by prompt variable tokens. -/
def lbrace : Char := Char.ofNat 123

/-- The closing-brace character (code point 125), used by prompt variable tokens. -/
def rbrace : Char := Char.ofNat 125

/-- Python's regex class `\s`, restricted to the ASCII whitespace characters
(space, tab, newline, carriage return, vertical tab, form feed).  This is the
set relevant to model output; the embedding does not model the exotic Unicode
members of `\s`. -/
def isPySpace (c : Char) : Bool :=
  c = ' ' || c = '\t' || c = '\n' || c = '\r' || c = Char.ofNat 11 || c = Char.ofNat 12

/-- Match the tail `\s*\n` of the opening-fence regex at the current position,
with Python's greedy backtracking: the match consumes the maximal whitespace
run up to and including its last newline.  Returns the suffix after the match,
or `none` when the whitespace run ahead contains no newline. -/
def consumeWsNl : List Char → Option (List Char)
  | [] => none
  | c :: cs =>
    if isPySpace c then
      if c = '\n' then some ((consumeWsNl cs).getD cs)
      else consumeWsNl cs
    else none

/-- Match the tail `\s*$` of the closing-fence regex (MULTILINE `$`): greedily
consume whitespace up to the end of the string, or up to (not including) the
last newline reachable through whitespace.  Returns the suffix after the
match, or `none` when neither occurs. -/
def consumeWsDollar : List Char → Option (List Char)
  | [] => some []
  | c :: cs =>
    if isPySpace c then
      match consumeWsDollar cs with
      | some r => some r
      | none => if c = '\n' then some (c :: cs) else none
    else if c = '\n' then some (c :: cs) else none

/-- Match the regex `^(backtick)(backtick)(backtick)(?:json)?\s*\n` at the
current position, which the caller guarantees to be a line start. The
optional `json` tag is tried greedily first; on failure the engine
backtracks to the untagged alternative. Returns the suffix after the match. -/
def matchOpenFence (cs : List Char) : Option (List Char) :=
  match cs with
  | a :: b :: c :: 'j' :: 's' :: 'o' :: 'n' :: rest2 =>
    if a = backtick ∧ b = backtick ∧ c = backtick then
      match consumeWsNl rest2 with
      | some r => some r
      | none => consumeWsNl ('j' :: 's' :: 'o' :: 'n' :: rest2)
    else none
  | a :: b :: c :: rest =>
    if a = backtick ∧ b = backtick ∧ c = backtick then consumeWsNl rest
    else none
  | _ => none

/-- Match the regex `\n(backtick)(backtick)(backtick)\s*$` at the current
position.  Returns the suffix after the match. -/
def matchCloseFence (cs : List Char) : Option (List Char) :=
  match cs with
  | n :: a :: b :: c :: rest =>
    if n = '\n' ∧ a = backtick ∧ b = backtick ∧ c = backtick then
      consumeWsDollar rest
    else none
  | _ => none

theorem consumeWsNl_length_lt : ∀ {l r : List Char}, consumeWsNl l = some r → r.length < l.length := by
  intro l
  induction l with
  | nil => intro r h; simp [consumeWsNl] at h
  | cons c cs ih =>
    intro r h
    simp only [consumeWsNl] at h
    split at h
    · split at h
      · cases hrec : consumeWsNl cs with
        | none =>
          rw [hrec] at h
          simp only [Option.getD_none, Option.some.injEq] at h
          subst h
          simp
        | some r' =>
          rw [hrec] at h
          simp only [Option.getD_some, Option.some.injEq] at h
          subst h
          exact Nat.lt_trans (ih hrec) (Nat.lt_succ_self _)
      · exact Nat.lt_trans (ih h) (Nat.lt_succ_self _)
    · exact absurd h (by simp)

theorem consumeWsDollar_length_le : ∀ {l r : List Char}, consumeWsDollar l = some r → r.length ≤ l.length := by
  intro l
  induction l with
  | nil =>
    intro r h
    simp only [consumeWsDollar, Option.some.injEq] at h
    subst h
    exact Nat.le_refl _
  | cons c cs ih =>
    intro r h
    simp only [consumeWsDollar] at h
    split at h
    · split at h
      · rename_i r' hrec
        simp only [Option.some.injEq] at h
        subst h
        exact Nat.le_trans (ih hrec) (Nat.le_succ _)
      · split at h
        · simp only [Option.some.injEq] at h
          subst h
          exact Nat.le_refl _
        · exact absurd h (by simp)
    · split at h
      · simp only [Option.some.injEq] at h
        subst h
        exact Nat.le_refl _
      · exact absurd h (by simp)

theorem matchOpenFence_length_lt : ∀ {l r : List Char}, matchOpenFence l = some r → r.length < l.length := by
  intro l r h
  simp only [matchOpenFence] at h
  split at h
  · split at h
    · split at h
      · rename_i hrec
        simp only [Option.some.injEq] at h
        subst h
        have := consumeWsNl_length_lt hrec
        simp only [List.length_cons]
        omega
      · have := consumeWsNl_length_lt h
        simp only [List.length_cons] at this ⊢
        omega
    · exact absurd h (by simp)
  · split at h
    · have := consumeWsNl_length_lt h
      simp only [List.length_cons]
      omega
    · exact absurd h (by simp)
  · exact absurd h (by simp)

theorem matchCloseFence_length_lt : ∀ {l r : List Char}, matchCloseFence l = some r → r.length < l.length := by
  intro l r h
  simp only [matchCloseFence] at h
  split at h
  · split at h
    · have := consumeWsDollar_length_le h
      simp only [List.length_cons]
      omega
    · exact absurd h (by simp)
  · exact absurd h (by simp)

/-- One pass of `re.sub(r"^(fence)(?:json)?\s*\n", "", content, flags=re.MULTILINE)`:
scan left to right; at every line start try the opening-fence match and delete
it, otherwise copy the character.  `ls` records whether the current position
is a line start. -/
def sub1Go (ls : Bool) (l : List Char) : List Char :=
  match l with
  | [] => []
  | c :: cs =>
    if ls then
      match h : matchOpenFence (c :: cs) with
      | some rest => sub1Go true rest
      | none => c :: sub1Go (c = '\n') cs
    else c :: sub1Go (c = '\n') cs
termination_by l.length
decreasing_by
  · exact matchOpenFence_length_lt h
  · simp
  · simp

/-- One pass of `re.sub(r"\n(fence)\s*$", "", content, flags=re.MULTILINE)`:
scan left to right; at every position try the closing-fence match and delete
it, otherwise copy the character. -/
def sub2Go (l : List Char) : List Char :=
  match l with
  | [] => []
  | c :: cs =>
    match h : matchCloseFence (c :: cs) with
    | some rest => sub2Go rest
    | none => c :: sub2Go cs
termination_by l.length
decreasing_by
  · exact matchCloseFence_length_lt h
  · simp

/-- Python's `str.strip()` restricted to the modeled whitespace set. -/
def pyStrip (cs : List Char) : List Char :=
  ((cs.dropWhile isPySpace).reverse.dropWhile isPySpace).reverse

/-- Python's `str.rfind` for a single character: index of its last occurrence. -/
def rfindIdx (p : Char → Bool) (cs : List Char) : Option Nat :=
  match cs.reverse.findIdx? p with
  | some k => some (cs.length - 1 - k)
  | none => none

/-- Embedding of `clean_json_content` (src/app/services/llm_extractor.py):
strip a leading fenced-code marker and a trailing fenced-code marker at line
boundaries, trim surrounding whitespace, then slice from the first
opening bracket to the last closing bracket when both are found in order. -/
def clean_json_content (content : List Char) : List Char :=
  let c1 := sub1Go true content
  let c2 := sub2Go c1
  let c3 := pyStrip c2
  match c3.findIdx? (· = '['), rfindIdx (· = ']') c3 with
  | some i, some j => if i < j then (c3.take (j + 1)).drop i else c3
  | some _, none => c3
  | none, some _ => c3
  | none, none => c3

/-- Values produced by Python json.loads.  JSON numbers are modeled as
integers; fractional values never influence the control flow under study. -/
inductive Json where
  | null
  | bool (b : Bool)
  | num (n : Int)
  | str (s : String)
  | arr (items : List Json)
  | obj (fields : List (String × Json))

/-- Python type(v) rendering used by the not-an-array error message (the
quotes of the Python class repr are elided). -/
def pyTypeName : Json → String
  | .null => "<class NoneType>"
  | .bool _ => "<class bool>"
  | .num _ => "<class int>"
  | .str _ => "<class str>"
  | .arr _ => "<class list>"
  | .obj _ => "<class dict>"

/-- Does the needle occur as a contiguous segment of the haystack?  This is
Python `needle in haystack` on strings. -/
def containsSeg (needle haystack : List Char) : Bool :=
  haystack.tails.any (fun t => needle.isPrefixOf t)

/-- Python `needle in haystack` on strings. -/
def pyIn (needle haystack : String) : Bool :=
  containsSeg needle.data haystack.data

/-- The substring the retry loop looks for in a ValueError message to decide
whether the failure is a JSON-decode failure. -/
def decodeTag : String := "无法解析 LLM 返回的 JSON"

/-- One choice of the chat-completion envelope: its finish_reason and its
message content (None models both a JSON null content and an absent one). -/
structure Choice where
  finish_reason : Option String
  content : Option String
deriving DecidableEq

/-- The decoded chat-completion envelope: its choices array plus the textual
repr of the whole body (interpolated into the missing-choices message). -/
structure LLMResponse where
  choices : List Choice
  raw : String
deriving DecidableEq

/-- What one HTTP round-trip to the model can produce: a transport-level
failure (connection error or non-2xx status, raised by raise_for_status as a
non-ValueError exception) or a decoded response envelope. -/
inductive AttemptOutcome where
  | httpFail (detail : String)
  | ok (resp : LLMResponse)
deriving DecidableEq

/-- The failures `_call_llm_and_parse` can raise, with the data interpolated
into their messages. -/
inductive PipeError where
  | transport (detail : String)
  | missingToken
  | missingChoices (raw : String)
  | truncated
  | emptyContent
  | decodeFail (detail : String) (content : String)
  | notArray (tname : String)
deriving DecidableEq

/-- Is the exception a ValueError (caught by the retry loop)?  Transport
failures are httpx exceptions, not ValueError. -/
def PipeError.isValueError : PipeError → Bool
  | .transport _ => false
  | _ => true

/-- The exact message text each failure carries (Chinese literals from
src/app/services/llm_extractor.py; Python quote characters elided). -/
def PipeError.message : PipeError → String
  | .transport detail => detail
  | .missingToken => "AI_BUILDER_TOKEN 环境变量未设置"
  | .missingChoices raw => "LLM API 响应格式错误：缺少 choices 字段。响应: " ++ raw
  | .truncated => "LLM 响应被截断（达到 max_tokens 限制）。请尝试减少输入文本长度或增加 max_tokens 限制。"
  | .emptyContent => "LLM 返回的内容为空"
  | .decodeFail detail content => decodeTag ++ ": " ++ detail ++ "。内容: " ++ content
  | .notArray tname => "LLM 返回的数据不是数组格式: " ++ tname

/-- The retry-loop classification: caught as ValueError and its message
contains the decode tag. -/
def retryable (e : PipeError) : Bool :=
  e.isValueError && pyIn decodeTag e.message

/-- The JSON decoder: either a decoded value or a decoder message (the `{e}`
interpolated into the decode-failure text). -/
def JsonLoads : Type := List Char → Except String Json

/-- Embedding of `_call_llm_and_parse` for one attempt: token check, HTTP
round-trip, envelope check, truncation check, empty-content check,
sanitization, JSON decoding, array check. -/
def callLLMAndParse (jl : JsonLoads) (tokenSet : Bool) (out : AttemptOutcome) :
    Except PipeError (List Json) :=
  if tokenSet = false then .error .missingToken
  else
    match out with
    | .httpFail detail => .error (.transport detail)
    | .ok resp =>
      match resp.choices with
      | [] => .error (.missingChoices resp.raw)
      | choice :: _ =>
        if choice.finish_reason = some "length" then .error .truncated
        else
          match choice.content with
          | none => .error .emptyContent
          | some content =>
            if content = "" then .error .emptyContent
            else
              let cleaned := clean_json_content content.data
              match jl cleaned with
              | .error detail => .error (.decodeFail detail (String.mk cleaned))
              | .ok (.arr items) => .ok items
              | .ok v => .error (.notArray (pyTypeName v))

/-- Result of the bounded retry loop together with the number of model
invocations (HTTP POSTs) it performed. -/
structure ExtractOutcome where
  result : Except PipeError (List Json)
  invocations : Nat

/-- Number of HTTP POSTs one `_call_llm_and_parse` call performs: the token
check precedes the request. -/
def callCost (tokenSet : Bool) : Nat := if tokenSet then 1 else 0

/-- Embedding of the retry loop of `extract_events_with_llm` (max_retries=1):
a first attempt; on a ValueError whose message contains the decode tag, one
more attempt whose outcome is final either way; any other failure propagates
at once. -/
def extractRetryLoop (jl : JsonLoads) (tokenSet : Bool) (att : Nat → AttemptOutcome) :
    ExtractOutcome :=
  match callLLMAndParse jl tokenSet (att 0) with
  | .ok xs => ⟨.ok xs, callCost tokenSet⟩
  | .error e =>
    if retryable e then
      match callLLMAndParse jl tokenSet (att 1) with
      | .ok xs => ⟨.ok xs, callCost tokenSet + callCost tokenSet⟩
      | .error e2 => ⟨.error e2, callCost tokenSet + callCost tokenSet⟩
    else ⟨.error e, callCost tokenSet⟩

/-- First binding of a key in a decoded JSON object (json.loads never yields
duplicate keys). -/
def jlookup (key : String) : List (String × Json) → Option Json
  | [] => none
  | (k, v) :: rest => if k = key then some v else jlookup key rest

/-- Pydantic string-field validation: only a JSON string is accepted. -/
def asStr? : Json → Option String
  | .str s => some s
  | _ => none

/-- Python truthiness of a decoded JSON value. -/
def truthy : Json → Bool
  | .null => false
  | .bool b => b
  | .num n => decide (n ≠ 0)
  | .str s => decide (s ≠ "")
  | .arr items => !items.isEmpty
  | .obj fields => !fields.isEmpty

/-- The Event model of src/app/models/response.py. -/
structure Event where
  title : String
  start_time : String
  end_time : String
  description : Option String
  tag : Option String
deriving DecidableEq

/-- The tag-resolution step of the mapping loop: keep the raw tag only when a
non-empty whitelist was supplied, the value is truthy, and it is a member of
the whitelist; otherwise force null. -/
def resolveTag (tags : Option (List String)) (rawTag : Json) : Option String :=
  match tags with
  | some ts =>
    if ts.length > 0 then
      match rawTag with
      | .str s => if truthy (.str s) ∧ s ∈ ts then some s else none
      | _ => none
    else none
  | none => none

/-- Pydantic validation of the non-tag Event fields of one decoded object:
title, start_time, end_time are required strings, description an optional
string; `none` models a ValidationError. -/
def validateFields (kvs : List (String × Json)) :
    Option (String × String × String × Option String) :=
  match jlookup "title" kvs, jlookup "start_time" kvs, jlookup "end_time" kvs with
  | some tv, some sv, some ev =>
    match asStr? tv, asStr? sv, asStr? ev with
    | some t, some s, some e =>
      match jlookup "description" kvs with
      | none => some (t, s, e, none)
      | some .null => some (t, s, e, none)
      | some (.str d) => some (t, s, e, some d)
      | some _ => none
    | _, _, _ => none
  | _, _, _ => none

/-- Construction of one Event from one raw record: tag resolution followed by
pydantic validation of the remaining fields.  `none` models any exception
caught by the per-record handler (non-dict record, missing or mistyped
field). -/
def buildEvent (tags : Option (List String)) (record : Json) : Option Event :=
  match record with
  | .obj kvs =>
    (validateFields kvs).map
      (fun f => ⟨f.1, f.2.1, f.2.2.1, f.2.2.2, resolveTag tags ((jlookup "tag" kvs).getD .null)⟩)
  | _ => none

/-- Embedding of the mapping loop of `extract_events_with_llm`: an append
accumulator; records whose construction raises are skipped. -/
def buildEvents (tags : Option (List String)) (records : List Json) : List Event :=
  records.foldl (fun acc r => match buildEvent tags r with | some e => acc ++ [e] | none => acc) []

/-- The retry phase composed with the mapping phase, with the invocation
count exposed. -/
def extract_events_with_llm (jl : JsonLoads) (tokenSet : Bool) (att : Nat → AttemptOutcome)
    (tags : Option (List String)) : Except PipeError (List Event) × Nat :=
  let o := extractRetryLoop jl tokenSet att
  (o.result.map (buildEvents tags), o.invocations)

/-- Zero-pad a natural number to the given width (Python format {:0Nd}). -/
def padNat (w : Nat) (n : Nat) : String :=
  let s := toString n
  if s.length < w then String.mk (List.replicate (w - s.length) '0') ++ s else s

/-- Embedding of `extract_timezone_from_iso` (src/app/utils/timezone.py).
The parsed timestamp is represented by its embedded UTC offset in seconds
(`none` when the timestamp is timezone-naive).  Python floor division and
modulo become `Int.ediv` / `Int.emod`. -/
def extract_timezone_from_iso (offsetSecs : Option Int) : String :=
  match offsetSecs with
  | some total_seconds =>
    let hours := Int.ediv total_seconds 3600
    let minutes := Int.ediv (Int.emod total_seconds 3600) 60
    if total_seconds = 0 then "UTC"
    else
      let sign := if 0 ≤ hours then "+" else "-"
      sign ++ padNat 2 hours.natAbs ++ ":" ++ padNat 2 minutes.natAbs
  | none => "+00:00"

/-- The timezone-label derivation in `extract_events_with_llm` when no
timezone is supplied: extract from the ISO string, then map a bare +00:00
offset (the naive case) to the friendlier label UTC. -/
def resolveTimezoneLabel (offsetSecs : Option Int) : String :=
  let tz := extract_timezone_from_iso offsetSecs
  if tz = "+00:00" then "UTC" else tz

/-- Days since 1970-01-01 of a proleptic-Gregorian civil date (the arithmetic
underlying Python datetime.date.toordinal, shifted to the Unix epoch). -/
def daysFromCivil (y m d : Int) : Int :=
  let y2 := if m ≤ 2 then y - 1 else y
  let era := Int.ediv y2 400
  let yoe := y2 - era * 400
  let mp := Int.emod (m + 9) 12
  let doy := Int.ediv (153 * mp + 2) 5 + d - 1
  let doe := yoe * 365 + Int.ediv yoe 4 - Int.ediv yoe 100 + doy
  era * 146097 + doe - 719468

/-- Civil date (year, month, day) of a count of days since 1970-01-01. -/
def civilFromDays (z0 : Int) : Int × Int × Int :=
  let z := z0 + 719468
  let era := Int.ediv z 146097
  let doe := z - era * 146097
  let yoe := Int.ediv (doe - Int.ediv doe 1460 + Int.ediv doe 36524 - Int.ediv doe 146096) 365
  let y := yoe + era * 400
  let doy := doe - (365 * yoe + Int.ediv yoe 4 - Int.ediv yoe 100)
  let mp := Int.ediv (5 * doy + 2) 153
  let d := doy - Int.ediv (153 * mp + 2) 5 + 1
  let m := if mp < 10 then mp + 3 else mp - 9
  (if m ≤ 2 then y + 1 else y, m, d)

/-- A timezone, abstracted to what `datetime.astimezone` consumes: the UTC
offset (seconds) it assigns to each absolute instant (seconds since epoch).
A pytz fixed offset is a constant function; an IANA zone varies with the
instant. -/
structure Zone where
  offsetAt : Int → Int

/-- The wall-clock fields of a parsed ISO-8601 timestamp. -/
structure NaiveDT where
  year : Int
  month : Int
  day : Int
  hour : Int
  minute : Int
  second : Int

/-- Wall-clock seconds since epoch of naive fields (in their own frame). -/
def toWallSeconds (n : NaiveDT) : Int :=
  daysFromCivil n.year n.month n.day * 86400 + n.hour * 3600 + n.minute * 60 + n.second

/-- A parsed ISO-8601 timestamp: wall-clock fields plus the embedded UTC
offset in seconds (`none` when timezone-naive). -/
structure ISOTimestamp where
  naive : NaiveDT
  offset : Option Int

/-- An aware datetime value: its wall-clock seconds and the offset of the
timezone it is expressed in. -/
structure AwareDT where
  wall : Int
  offset : Int

/-- The absolute instant an aware datetime denotes. -/
def dtInstant (dt : AwareDT) : Int := dt.wall - dt.offset

/-- datetime.astimezone: same instant, re-expressed in the target zone using
that zone's offset at the instant. -/
def astimezone (dt : AwareDT) (z : Zone) : AwareDT :=
  let i := dtInstant dt
  ⟨i + z.offsetAt i, z.offsetAt i⟩

/-- Embedding of `get_current_time_in_timezone` (src/app/utils/timezone.py)
for a supplied timezone: parse the ISO string, localize to UTC when naive
(pytz.UTC.localize), then convert to the target zone. -/
def get_current_time_in_timezone (ts : ISOTimestamp) (z : Zone) : AwareDT :=
  let dt0 : AwareDT :=
    match ts.offset with
    | some o => ⟨toWallSeconds ts.naive, o⟩
    | none => ⟨toWallSeconds ts.naive, 0⟩
  astimezone dt0 z

/-- Render a civil (year, month, day) triple as YYYY-MM-DD. -/
def fmtCivil (c : Int × Int × Int) : String :=
  padNat 4 c.1.natAbs ++ "-" ++ padNat 2 c.2.1.natAbs ++ "-" ++ padNat 2 c.2.2.natAbs

/-- Embedding of `format_date_str`: strftime %Y-%m-%d reads the datetime's
own wall-clock fields. -/
def format_date_str (dt : AwareDT) : String :=
  fmtCivil (civilFromDays (Int.ediv dt.wall 86400))

/-- The instant a parsed timestamp denotes, a timezone-naive one being read
as UTC. -/
def tsInstant (ts : ISOTimestamp) : Int :=
  toWallSeconds ts.naive - (ts.offset.getD 0)

/-- Stated from the spec's words, for comparison with the code: the calendar
date of the instant as observed in zone z — the civil date of the instant
shifted by the offset z assigns to it. -/
def specObservedDate (instant : Int) (z : Zone) : Int × Int × Int :=
  civilFromDays (Int.ediv (instant + z.offsetAt instant) 86400)

/-- One scan of Python str.replace with a non-empty pattern: non-overlapping
occurrences replaced left to right, scanning resuming after each
replacement. -/
def replaceGo (pat rep : List Char) (l : List Char) : List Char :=
  match l with
  | [] => []
  | c :: cs =>
    if h : pat ≠ [] ∧ pat.isPrefixOf (c :: cs) then
      rep ++ replaceGo pat rep ((c :: cs).drop pat.length)
    else
      c :: replaceGo pat rep cs
termination_by l.length
decreasing_by
  · have hp : 0 < pat.length := List.length_pos.mpr h.1
    simp only [List.length_drop, List.length_cons]
    omega
  · simp

/-- Python str.replace(pat, rep): with an empty pattern the replacement is
inserted at every boundary; otherwise the left-to-right scan. -/
def pyReplace (s pat rep : List Char) : List Char :=
  if pat = [] then rep ++ (s.map (fun c => c :: rep)).flatten
  else replaceGo pat rep s

/-- The placeholder token for a variable name (an opening brace, the name,
a closing brace), as built by the f-string in replace_prompt_variables. -/
def varToken (name : String) : List Char :=
  lbrace :: (name.data ++ [rbrace])

/-- Embedding of `replace_prompt_variables` (src/app/utils/prompt_loader.py):
one str.replace pass per variable, in mapping order, over the accumulated
result. -/
def replace_prompt_variables (template : List Char) (varMap : List (String × String)) :
    List Char :=
  varMap.foldl (fun result kv => pyReplace result (varToken kv.1) kv.2.data) template

/-- The base prompt-variable mapping built by `extract_events_with_llm`
(lines 136-143), in dict insertion order: the transcript entry precedes the
timezone entry. -/
def extractPromptVariables (current_time_str current_time_iso current_date past_30min_str
    transcript timezone_label : String) : List (String × String) :=
  [("current_time_str", current_time_str),
   ("current_time_iso", current_time_iso),
   ("current_date", current_date),
   ("past_30min_str", past_30min_str),
   ("transcript", transcript),
   ("timezone", timezone_label)]

theorem varToken_ne_nil (n : String) : varToken n ≠ [] := by
  simp [varToken]

theorem pyIn_append_left (n r : String) : pyIn n (n ++ r) = true := by
  simp only [pyIn, containsSeg, String.data_append, List.any_eq_true]
  refine ⟨n.data ++ r.data, ?_, ?_⟩
  · exact (List.mem_tails _ _).mpr (List.suffix_refl _)
  · exact List.isPrefixOf_iff_prefix.mpr (List.prefix_append _ _)

theorem retryable_decodeFail (d c : String) : retryable (.decodeFail d c) = true := by
  have h : (PipeError.decodeFail d c).message = decodeTag ++ (": " ++ d ++ "。内容: " ++ c) := by
    simp [PipeError.message, String.append_assoc]
  simp [retryable, PipeError.isValueError, h, pyIn_append_left]

theorem retryable_missingToken : retryable .missingToken = false := by decide

theorem retryable_truncated : retryable .truncated = false := by decide

theorem retryable_emptyContent : retryable .emptyContent = false := by decide

theorem retryable_transport (d : String) : retryable (.transport d) = false := rfl

theorem retryable_notArray (v : Json) : retryable (.notArray (pyTypeName v)) = false := by
  cases v <;> simp only [pyTypeName] <;> decide

/-- C6: with no supplied timezone identifier, the label is derived from the
embedded offset and a zero offset (and the naive default) yields the label
UTC; but for the negative non-whole-hour offset -08:30 (-30600 seconds) the
code renders "-09:30", not "-08:30": Python floor division sends -30600
to hours = -9 and minutes = 30.  This evaluates the code at the failing
input of the code_bug verdict. -/
theorem c6_offset_label_evaluation :
    resolveTimezoneLabel (some 0) = "UTC"
  ∧ resolveTimezoneLabel none = "UTC"
  ∧ extract_timezone_from_iso (some (-30600)) = "-09:30"
  ∧ extract_timezone_from_iso (some (-28800)) = "-08:00" := by
  refine ⟨by decide, by decide, by decide, by decide⟩

/-- C7: the derived display date is the calendar date of the denoted instant
as observed in the target zone (the zone's offset applied to the absolute
instant, not the timestamp's embedded offset), and a timezone-naive
timestamp is interpreted as UTC before conversion. -/
theorem c7_display_date_in_zone (ts : ISOTimestamp) (z : Zone) :
    format_date_str (get_current_time_in_timezone ts z) =
      fmtCivil (specObservedDate (tsInstant ts) z)
  ∧ get_current_time_in_timezone ⟨ts.naive, none⟩ z =
      get_current_time_in_timezone ⟨ts.naive, some 0⟩ z := by
  constructor
  · cases ht : ts.offset <;>
      simp [format_date_str, get_current_time_in_timezone, astimezone, dtInstant,
        specObservedDate, tsInstant, ht]
  · rfl

theorem extractRetryLoop_ok (jl : JsonLoads) (tok : Bool) (att : Nat → AttemptOutcome)
    (xs : List Json) (h : callLLMAndParse jl tok (att 0) = .ok xs) :
    extractRetryLoop jl tok att = ⟨.ok xs, callCost tok⟩ := by
  unfold extractRetryLoop
  rw [h]

theorem extractRetryLoop_err_noRetry (jl : JsonLoads) (tok : Bool) (att : Nat → AttemptOutcome)
    (e : PipeError) (h : callLLMAndParse jl tok (att 0) = .error e)
    (hr : retryable e = false) :
    extractRetryLoop jl tok att = ⟨.error e, callCost tok⟩ := by
  unfold extractRetryLoop
  rw [h]
  simp [hr]

theorem extractRetryLoop_err_retry (jl : JsonLoads) (tok : Bool) (att : Nat → AttemptOutcome)
    (e : PipeError) (h : callLLMAndParse jl tok (att 0) = .error e)
    (hr : retryable e = true) :
    extractRetryLoop jl tok att =
      match callLLMAndParse jl tok (att 1) with
      | .ok xs => ⟨.ok xs, callCost tok + callCost tok⟩
      | .error e2 => ⟨.error e2, callCost tok + callCost tok⟩ := by
  unfold extractRetryLoop
  rw [h]
  simp [hr]

theorem callLLMAndParse_decode_token (jl : JsonLoads) (tok : Bool) (out : AttemptOutcome)
    (d c : String) (h : callLLMAndParse jl tok out = .error (.decodeFail d c)) : tok = true := by
  cases tok
  · simp [callLLMAndParse] at h
  · rfl

/-- C1: the retry policy of `extract_events_with_llm`: at most two model
invocations ever happen; a first-attempt JSON-decode failure is retried
exactly once (two invocations), a second decode failure being raised to the
caller unchanged and a second-attempt success returning its records; the
other failure classes (missing credential, transport failure, truncation,
empty content) propagate immediately after the single attempt. -/
theorem c1_retry_policy (jl : JsonLoads) (tok : Bool) (att : Nat → AttemptOutcome) :
    (extractRetryLoop jl tok att).invocations ≤ 2
  ∧ (∀ d c, callLLMAndParse jl tok (att 0) = .error (.decodeFail d c) →
      (extractRetryLoop jl tok att).invocations = 2
      ∧ (∀ d2 c2, callLLMAndParse jl tok (att 1) = .error (.decodeFail d2 c2) →
          (extractRetryLoop jl tok att).result = .error (.decodeFail d2 c2))
      ∧ (∀ xs, callLLMAndParse jl tok (att 1) = .ok xs →
          (extractRetryLoop jl tok att).result = .ok xs))
  ∧ (∀ e, callLLMAndParse jl tok (att 0) = .error e →
      (e = .missingToken ∨ (∃ dt, e = .transport dt) ∨ e = .truncated ∨ e = .emptyContent) →
      extractRetryLoop jl tok att = ⟨.error e, callCost tok⟩) := by
  refine ⟨?_, ?_, ?_⟩
  · cases h0 : callLLMAndParse jl tok (att 0) with
    | ok xs =>
      rw [extractRetryLoop_ok jl tok att xs h0]
      cases tok <;> simp [callCost]
    | error e =>
      cases hr : retryable e with
      | false =>
        rw [extractRetryLoop_err_noRetry jl tok att e h0 hr]
        cases tok <;> simp [callCost]
      | true =>
        rw [extractRetryLoop_err_retry jl tok att e h0 hr]
        cases h1 : callLLMAndParse jl tok (att 1) <;> cases tok <;> simp [callCost]
  · intro d c h0
    have htok := callLLMAndParse_decode_token jl tok (att 0) d c h0
    subst htok
    rw [extractRetryLoop_err_retry jl true att _ h0 (retryable_decodeFail d c)]
    refine ⟨?_, ?_, ?_⟩
    · cases h1 : callLLMAndParse jl true (att 1) <;> simp [callCost]
    · intro d2 c2 h1
      rw [h1]
    · intro xs h1
      rw [h1]
  · intro e h0 hclass
    have hr : retryable e = false := by
      rcases hclass with rfl | ⟨dt, rfl⟩ | rfl | rfl
      · exact retryable_missingToken
      · exact retryable_transport dt
      · exact retryable_truncated
      · exact retryable_emptyContent
    exact extractRetryLoop_err_noRetry jl tok att e h0 hr

theorem callFail_eval : callLLMAndParse (fun _ => Except.error "Expecting value") true
    (.ok ⟨[⟨some "stop", some "x"⟩], "body"⟩) = .error (.decodeFail "Expecting value" "x") := by
  have hx : "x".data = ['x'] := rfl
  have hc : clean_json_content "x".data = "x".data := by
    rw [hx]
    simp [clean_json_content, sub1Go, sub2Go, matchOpenFence, matchCloseFence, pyStrip,
      rfindIdx, isPySpace, backtick]
  have hms : String.mk "x".data = "x" := rfl
  simp [callLLMAndParse, hc, hms]

/-- C1 witness: a response whose content decodes as non-JSON on both
attempts performs exactly two invocations and surfaces the decode error. -/
theorem c1_retry_policy_witness :
    (extractRetryLoop (fun _ => Except.error "Expecting value") true
        (fun _ => .ok ⟨[⟨some "stop", some "x"⟩], "body"⟩)).invocations = 2
  ∧ (extractRetryLoop (fun _ => Except.error "Expecting value") true
        (fun _ => .ok ⟨[⟨some "stop", some "x"⟩], "body"⟩)).result
      = .error (.decodeFail "Expecting value" "x") := by
  have h := (c1_retry_policy (fun _ => Except.error "Expecting value") true
      (fun _ => .ok ⟨[⟨some "stop", some "x"⟩], "body"⟩)).2.1 "Expecting value" "x" callFail_eval
  exact ⟨h.1, h.2.1 "Expecting value" "x" callFail_eval⟩

/-- A concrete decoder agreeing with json.loads on the inputs of the
concrete scenarios: the text 12 decodes to the number 12; any other text
fails as json.loads fails on non-JSON text. -/
def jsonLoadsSample : JsonLoads := fun cs =>
  if cs = ['1', '2'] then .ok (.num 12) else .error "Expecting value"

/-- C3: a first-attempt reply whose finish_reason is length fails at once
with the truncation error after a single invocation; the outcome does not
depend on the JSON decoder (the content is never sanitized or parsed), and
a truncated reply yields the truncation error whatever its content. -/
theorem c3_truncation (jl jl2 : JsonLoads) (att : Nat → AttemptOutcome)
    (resp : LLMResponse) (ch : Choice) (rest : List Choice)
    (h0 : att 0 = .ok resp) (hch : resp.choices = ch :: rest)
    (hfin : ch.finish_reason = some "length") :
    extractRetryLoop jl true att = ⟨.error .truncated, 1⟩
  ∧ extractRetryLoop jl true att = extractRetryLoop jl2 true att
  ∧ (∀ (content : Option String) (raw : String),
        callLLMAndParse jl true (.ok ⟨⟨some "length", content⟩ :: rest, raw⟩)
          = .error .truncated) := by
  have hcall : ∀ jl' : JsonLoads, callLLMAndParse jl' true (att 0) = .error .truncated := by
    intro jl'
    rw [h0]
    simp [callLLMAndParse, hch, hfin]
  have h1 := extractRetryLoop_err_noRetry jl true att .truncated (hcall jl) retryable_truncated
  have h2 := extractRetryLoop_err_noRetry jl2 true att .truncated (hcall jl2) retryable_truncated
  refine ⟨h1, ?_, ?_⟩
  · rw [h1, h2]
  · intro content raw
    simp [callLLMAndParse]

/-- C3 witness: a concrete truncated reply surfaces the truncation error on
the first attempt with one invocation. -/
theorem c3_truncation_witness :
    extractRetryLoop jsonLoadsSample true
        (fun _ => .ok ⟨[⟨some "length", some "cut"⟩], "body"⟩) = ⟨.error .truncated, 1⟩ :=
  (c3_truncation jsonLoadsSample jsonLoadsSample
      (fun _ => .ok ⟨[⟨some "length", some "cut"⟩], "body"⟩)
      ⟨[⟨some "length", some "cut"⟩], "body"⟩ ⟨some "length", some "cut"⟩ []
      rfl rfl rfl).1

theorem callSample_nonarray_eval :
    callLLMAndParse jsonLoadsSample true (.ok ⟨[⟨some "stop", some "12"⟩], "body"⟩)
      = .error (.notArray "<class int>") := by
  have h12 : "12".data = ['1', '2'] := rfl
  have hc : clean_json_content "12".data = ['1', '2'] := by
    rw [h12]
    simp [clean_json_content, sub1Go, sub2Go, matchOpenFence, matchCloseFence, pyStrip,
      rfindIdx, isPySpace, backtick]
  simp [callLLMAndParse, hc, jsonLoadsSample, pyTypeName]

theorem callLLMAndParse_notArray_shape (jl : JsonLoads) (tok : Bool) (out : AttemptOutcome)
    (t : String) (h : callLLMAndParse jl tok out = .error (.notArray t)) :
    ∃ v : Json, t = pyTypeName v := by
  unfold callLLMAndParse at h
  repeat' split at h
  all_goals try simp_all
  split at h
  · simp_all
  · simp_all
  · simp only [Except.error.injEq, PipeError.notArray.injEq] at h
    exact ⟨_, h.symm⟩

/-- C2 counterexample: a first-attempt reply whose sanitized content decodes
as JSON with a non-array top level (the number 12) is NOT retried: the loop
stops after one invocation with the not-an-array ValueError, whose message
lacks the decode tag the retry check looks for — the claim predicts a
second invocation here. -/
theorem c2_counterexample :
    extractRetryLoop jsonLoadsSample true
        (fun _ => .ok ⟨[⟨some "stop", some "12"⟩], "body"⟩)
      = ⟨.error (.notArray "<class int>"), 1⟩
  ∧ (extractRetryLoop jsonLoadsSample true
        (fun _ => .ok ⟨[⟨some "stop", some "12"⟩], "body"⟩)).invocations ≠ 2 := by
  have h := extractRetryLoop_err_noRetry jsonLoadsSample true
      (fun _ => .ok ⟨[⟨some "stop", some "12"⟩], "body"⟩)
      (.notArray "<class int>") callSample_nonarray_eval (retryable_notArray (.num 12))
  exact ⟨h, by rw [h]; decide⟩

/-- C2 amended: a decoded non-array top level raises the not-an-array
ValueError, which is not in the JSON-decode retry class: it propagates
immediately after the single invocation, with no second model call. -/
theorem c2_nonarray_no_retry (jl : JsonLoads) (tok : Bool) (att : Nat → AttemptOutcome)
    (t : String) (h : callLLMAndParse jl tok (att 0) = .error (.notArray t)) :
    extractRetryLoop jl tok att = ⟨.error (.notArray t), callCost tok⟩ := by
  obtain ⟨v, rfl⟩ := callLLMAndParse_notArray_shape jl tok (att 0) t h
  exact extractRetryLoop_err_noRetry jl tok att _ h (retryable_notArray v)

/-- C2 amended witness: the concrete non-array scenario propagates after one
invocation. -/
theorem c2_nonarray_no_retry_witness :
    extractRetryLoop jsonLoadsSample true
        (fun _ => .ok ⟨[⟨some "stop", some "12"⟩], "body"⟩)
      = ⟨.error (.notArray "<class int>"), callCost true⟩ :=
  c2_nonarray_no_retry jsonLoadsSample true
    (fun _ => .ok ⟨[⟨some "stop", some "12"⟩], "body"⟩) "<class int>" callSample_nonarray_eval

theorem buildEvents_aux (tags : Option (List String)) (records : List Json) :
    ∀ acc : List Event,
      records.foldl
          (fun acc r => match buildEvent tags r with | some e => acc ++ [e] | none => acc) acc
        = acc ++ records.filterMap (buildEvent tags) := by
  induction records with
  | nil => intro acc; simp
  | cons r rs ih =>
    intro acc
    simp only [List.foldl_cons]
    rw [ih]
    cases hb : buildEvent tags r <;> simp [hb]

theorem buildEvents_eq_filterMap (tags : Option (List String)) (records : List Json) :
    buildEvents tags records = records.filterMap (buildEvent tags) := by
  unfold buildEvents
  simpa using buildEvents_aux tags records []

theorem jlookup_cons_ne (key k : String) (v : Json) (kvs : List (String × Json))
    (h : ¬k = key) : jlookup key ((k, v) :: kvs) = jlookup key kvs := by
  simp [jlookup, h]

theorem buildEvent_tag_shape (tags : Option (List String)) (r : Json) (e : Event)
    (h : buildEvent tags r = some e) : ∃ raw : Json, e.tag = resolveTag tags raw := by
  cases r with
  | obj kvs =>
    unfold buildEvent at h
    obtain ⟨f, hf, rfl⟩ := Option.map_eq_some'.mp h
    exact ⟨(jlookup "tag" kvs).getD .null, rfl⟩
  | null => simp [buildEvent] at h
  | bool b => simp [buildEvent] at h
  | num n => simp [buildEvent] at h
  | str st => simp [buildEvent] at h
  | arr items => simp [buildEvent] at h

theorem resolveTag_none_of_empty (tags : Option (List String)) (raw : Json)
    (h : tags = none ∨ tags = some []) : resolveTag tags raw = none := by
  rcases h with rfl | rfl
  · rfl
  · simp [resolveTag]

theorem resolveTag_mem (ts : List String) (raw : Json) :
    resolveTag (some ts) raw = none ∨ ∃ s, resolveTag (some ts) raw = some s ∧ s ∈ ts := by
  by_cases hl : ts.length > 0
  · cases raw with
    | str s =>
      by_cases hc : truthy (Json.str s) = true ∧ s ∈ ts
      · right
        refine ⟨s, ?_, hc.2⟩
        simp [resolveTag, hl, hc]
      · left
        simp only [resolveTag, hl, if_true, gt_iff_lt]
        rw [if_neg hc]
    | null => left; simp [resolveTag, hl]
    | bool b => left; simp [resolveTag, hl]
    | num n => left; simp [resolveTag, hl]
    | arr items => left; simp [resolveTag, hl]
    | obj fields => left; simp [resolveTag, hl]
  · left
    cases raw <;> simp [resolveTag, hl]

theorem validateFields_cons_tag (x : Json) (kvs : List (String × Json)) :
    validateFields (("tag", x) :: kvs) = validateFields kvs := by
  unfold validateFields
  rw [jlookup_cons_ne "title" "tag" x kvs (by decide),
    jlookup_cons_ne "start_time" "tag" x kvs (by decide),
    jlookup_cons_ne "end_time" "tag" x kvs (by decide),
    jlookup_cons_ne "description" "tag" x kvs (by decide)]

/-- C4: the tag-whitelist invariant of the mapping loop.  With no tag list
(or an empty one) every produced Event has a null tag; with a non-empty
whitelist every produced Event has a null tag or a whitelist member; and a
record is never rejected because of its tag value — replacing the tag
binding by null never changes whether the record builds. -/
theorem c4_tag_whitelist (tags : Option (List String)) (records : List Json) :
    (∀ ts, tags = some ts → ∀ e ∈ buildEvents tags records,
        e.tag = none ∨ ∃ s, e.tag = some s ∧ s ∈ ts)
  ∧ ((tags = none ∨ tags = some []) → ∀ e ∈ buildEvents tags records, e.tag = none)
  ∧ (∀ (kvs : List (String × Json)) (v : Json),
        (buildEvent tags (.obj (("tag", v) :: kvs))).isSome
          = (buildEvent tags (.obj (("tag", Json.null) :: kvs))).isSome) := by
  refine ⟨?_, ?_, ?_⟩
  · intro ts hts e he
    subst hts
    rw [buildEvents_eq_filterMap] at he
    obtain ⟨r, _, hb⟩ := List.mem_filterMap.mp he
    obtain ⟨raw, htag⟩ := buildEvent_tag_shape _ r e hb
    rw [htag]
    exact resolveTag_mem ts raw
  · intro hempty e he
    rw [buildEvents_eq_filterMap] at he
    obtain ⟨r, _, hb⟩ := List.mem_filterMap.mp he
    obtain ⟨raw, htag⟩ := buildEvent_tag_shape _ r e hb
    rw [htag]
    exact resolveTag_none_of_empty tags raw hempty
  · intro kvs v
    simp only [buildEvent]
    rw [validateFields_cons_tag v kvs, validateFields_cons_tag Json.null kvs]
    cases validateFields kvs <;> simp

/-- C4 witness: with whitelist [work, life], a record tagged travel builds
into an Event whose tag is null or a whitelist member (here: null). -/
theorem c4_tag_whitelist_witness :
    ∀ e ∈ buildEvents (some ["work", "life"])
        [Json.obj [("title", Json.str "t"), ("start_time", Json.str "s"),
                   ("end_time", Json.str "e"), ("tag", Json.str "travel")]],
      e.tag = none ∨ ∃ s, e.tag = some s ∧ s ∈ ["work", "life"] :=
  (c4_tag_whitelist (some ["work", "life"])
      [Json.obj [("title", Json.str "t"), ("start_time", Json.str "s"),
                 ("end_time", Json.str "e"), ("tag", Json.str "travel")]]).1
    ["work", "life"] rfl

/-- C5: the mapping loop is an independent per-record filter: its output is
exactly the filterMap of the per-record constructor (so order is preserved
and failures are skipped individually), its length never exceeds the number
of decoded records, an all-malformed batch yields the empty (non-error)
result, and a record missing its title never builds. -/
theorem c5_per_record_skip (tags : Option (List String)) (records : List Json) :
    buildEvents tags records = records.filterMap (buildEvent tags)
  ∧ (buildEvents tags records).length ≤ records.length
  ∧ ((∀ r ∈ records, buildEvent tags r = none) → buildEvents tags records = [])
  ∧ (∀ kvs : List (String × Json), jlookup "title" kvs = none →
      buildEvent tags (.obj kvs) = none) := by
  refine ⟨buildEvents_eq_filterMap tags records, ?_, ?_, ?_⟩
  · rw [buildEvents_eq_filterMap]
    exact List.length_filterMap_le _ _
  · intro hall
    rw [buildEvents_eq_filterMap]
    exact List.filterMap_eq_nil_iff.mpr hall
  · intro kvs htitle
    simp only [buildEvent, validateFields, htitle]
    cases jlookup "start_time" kvs <;> cases jlookup "end_time" kvs <;> simp

/-- C5 witness: a batch of three records, the middle one lacking its title,
yields exactly the two Events of the valid records in their order; and an
all-malformed batch yields the empty result. -/
theorem c5_per_record_skip_witness :
    buildEvents none [Json.obj [("start_time", Json.str "s")]] = []
  ∧ buildEvents none
      [Json.obj [("title", Json.str "a"), ("start_time", Json.str "s1"),
                 ("end_time", Json.str "e1")],
       Json.obj [("start_time", Json.str "s2"), ("end_time", Json.str "e2")],
       Json.obj [("title", Json.str "c"), ("start_time", Json.str "s3"),
                 ("end_time", Json.str "e3")]]
      = [⟨"a", "s1", "e1", none, none⟩, ⟨"c", "s3", "e3", none, none⟩] := by
  constructor
  · exact (c5_per_record_skip none [Json.obj [("start_time", Json.str "s")]]).2.2.1
      (by
        intro r hr
        simp only [List.mem_singleton] at hr
        subst hr
        exact (c5_per_record_skip none []).2.2.2 [("start_time", Json.str "s")] rfl)
  · rw [(c5_per_record_skip none _).1]
    decide

/-- Is the character neither an opening nor a closing brace? -/
def braceFreeChar (c : Char) : Bool := !(c == lbrace || c == rbrace)

/-- Does the text contain no brace at all? -/
def braceFree (s : List Char) : Bool := s.all braceFreeChar

/-- A template parsed as a sequence of brace-free literal chunks and
placeholder tokens. -/
inductive Seg where
  | lit (s : List Char)
  | tok (name : String)

/-- The text a segment denotes. -/
def renderSeg : Seg → List Char
  | .lit s => s
  | .tok n => varToken n

/-- The text a segment sequence denotes. -/
def renderSegs (segs : List Seg) : List Char :=
  (segs.map renderSeg).flatten

/-- Effect of one str.replace pass for key k on one segment. -/
def passSeg (k : String) (rep : List Char) : Seg → Seg
  | .lit s => .lit s
  | .tok n => if n = k then .lit rep else .tok n

/-- First binding of a name in the variable mapping. -/
def lookupVar (n : String) : List (String × String) → Option String
  | [] => none
  | (k, v) :: rest => if n = k then some v else lookupVar n rest

/-- Net effect of the whole substitution on one segment: a token bound in the
mapping becomes its value, an unbound token stays verbatim. -/
def substSeg (vm : List (String × String)) : Seg → Seg
  | .lit s => .lit s
  | .tok n =>
    match lookupVar n vm with
    | some v => .lit v.data
    | none => .tok n

/-- Goodness of a segment: its literal text or its name is brace-free. -/
def segGood : Seg → Prop
  | .lit s => braceFree s = true
  | .tok n => braceFree n.data = true

theorem braceFree_not_mem_l {s : List Char} (h : braceFree s = true) : lbrace ∉ s := by
  intro hm
  have := List.all_eq_true.mp h _ hm
  simp [braceFreeChar] at this

theorem braceFree_not_mem_r {s : List Char} (h : braceFree s = true) : rbrace ∉ s := by
  intro hm
  have := List.all_eq_true.mp h _ hm
  simp [braceFreeChar] at this

theorem string_data_ne {a b : String} (h : a ≠ b) : a.data ≠ b.data := by
  intro hd
  apply h
  cases a
  cases b
  simp only at hd
  rw [hd]

theorem replaceGo_nil (pat rep : List Char) : replaceGo pat rep [] = [] := by
  rw [replaceGo]

theorem replaceGo_cons (pat rep : List Char) (x : Char) (xs : List Char) :
    replaceGo pat rep (x :: xs) =
      if pat ≠ [] ∧ pat.isPrefixOf (x :: xs) then
        rep ++ replaceGo pat rep ((x :: xs).drop pat.length)
      else x :: replaceGo pat rep xs := by
  rw [replaceGo]
  split <;> rfl

theorem replaceGo_copy (p0 : Char) (pt rep : List Char) :
    ∀ c rest : List Char, p0 ∉ c →
      replaceGo (p0 :: pt) rep (c ++ rest) = c ++ replaceGo (p0 :: pt) rep rest := by
  intro c
  induction c with
  | nil => intro rest _; simp
  | cons x xs ih =>
    intro rest hni
    have hxp : ¬(p0 = x) := fun hpx => hni (by simp [hpx.symm])
    have hne : ((p0 :: pt).isPrefixOf (x :: (xs ++ rest))) = false := by
      simp only [List.isPrefixOf, Bool.and_eq_false_iff]
      left
      simp [hxp]
    rw [List.cons_append, replaceGo_cons]
    rw [if_neg (by intro hcond; rw [hne] at hcond; simp at hcond)]
    rw [ih rest (fun hm => hni (List.mem_cons_of_mem _ hm))]
    simp

theorem namePat_not_prefix :
    ∀ a b r : List Char, rbrace ∉ a → rbrace ∉ b → a ≠ b →
      ((a ++ [rbrace]).isPrefixOf (b ++ [rbrace] ++ r)) = false := by
  intro a
  induction a with
  | nil =>
    intro b r _ hb hne
    cases b with
    | nil => exact absurd rfl hne
    | cons y ys =>
      have hy : ¬(rbrace = y) := fun hy => hb (by simp [hy.symm])
      simp only [List.nil_append, List.cons_append, List.isPrefixOf, Bool.and_eq_false_iff]
      left
      simp [hy]
  | cons x xs ih =>
    intro b r ha hb hne
    cases b with
    | nil =>
      have hx : ¬(x = rbrace) := fun hx => ha (by simp [hx])
      simp only [List.nil_append, List.cons_append, List.isPrefixOf, Bool.and_eq_false_iff]
      left
      simp [hx]
    | cons y ys =>
      by_cases hxy : x = y
      · subst hxy
        have hne2 : xs ≠ ys := fun hx2 => hne (by rw [hx2])
        simp only [List.cons_append, List.isPrefixOf, Bool.and_eq_false_iff]
        right
        exact ih ys r (fun hm => ha (List.mem_cons_of_mem _ hm))
          (fun hm => hb (List.mem_cons_of_mem _ hm)) hne2
      · simp only [List.cons_append, List.isPrefixOf, Bool.and_eq_false_iff]
        left
        simp [hxy]

theorem varToken_append (n : String) (rest : List Char) :
    varToken n ++ rest = lbrace :: (n.data ++ [rbrace] ++ rest) := by
  simp [varToken]

theorem replaceGo_token (k n : String) (rep rest : List Char)
    (hk : braceFree k.data = true) (hn : braceFree n.data = true) :
    replaceGo (varToken k) rep (varToken n ++ rest) =
      if k = n then rep ++ replaceGo (varToken k) rep rest
      else varToken n ++ replaceGo (varToken k) rep rest := by
  by_cases hkn : k = n
  · subst hkn
    rw [if_pos rfl]
    have hpre : (varToken k).isPrefixOf (varToken k ++ rest) = true :=
      List.isPrefixOf_iff_prefix.mpr (List.prefix_append _ _)
    rw [varToken_append, show (lbrace :: (k.data ++ [rbrace] ++ rest))
        = varToken k ++ rest from (varToken_append k rest).symm]
    cases hv : varToken k ++ rest with
    | nil => exact absurd hv (by simp [varToken])
    | cons x xs =>
      rw [← hv, show varToken k ++ rest = x :: xs from hv, replaceGo_cons,
        if_pos ⟨varToken_ne_nil k, by rw [← hv]; exact hpre⟩, ← hv, List.drop_left]
  · rw [if_neg hkn, varToken_append, replaceGo_cons]
    have h2 := namePat_not_prefix k.data n.data rest (braceFree_not_mem_r hk)
      (braceFree_not_mem_r hn) (string_data_ne hkn)
    have hnot : ((varToken k).isPrefixOf (lbrace :: (n.data ++ [rbrace] ++ rest))) = false := by
      simp only [varToken, List.cons_append, List.isPrefixOf, beq_self_eq_true, Bool.true_and]
      simpa using h2
    rw [if_neg (by intro hcond; rw [hnot] at hcond; simp at hcond)]
    have hcopy := replaceGo_copy lbrace (k.data ++ [rbrace]) rep (n.data ++ [rbrace]) rest
      (by
        intro hm
        rcases List.mem_append.mp hm with hm1 | hm2
        · exact braceFree_not_mem_l hn hm1
        · simp at hm2
          exact absurd hm2.symm (by decide))
    simp only [varToken] at hcopy ⊢
    rw [hcopy]
    simp

theorem renderSegs_nil : renderSegs [] = [] := rfl

theorem renderSegs_cons (sg : Seg) (rest : List Seg) :
    renderSegs (sg :: rest) = renderSeg sg ++ renderSegs rest := by
  simp [renderSegs]

theorem replaceGo_render (k : String) (rep : List Char) (hk : braceFree k.data = true) :
    ∀ segs : List Seg, (∀ sg ∈ segs, segGood sg) →
      replaceGo (varToken k) rep (renderSegs segs)
        = renderSegs (segs.map (passSeg k rep)) := by
  intro segs
  induction segs with
  | nil => intro _; simp [renderSegs_nil, replaceGo_nil, varToken]
  | cons sg rest ih =>
    intro hgood
    have hrest := ih (fun s hs => hgood s (List.mem_cons_of_mem _ hs))
    have hsg := hgood sg (List.mem_cons_self _ _)
    cases sg with
    | lit s =>
      rw [renderSegs_cons, List.map_cons, renderSegs_cons]
      show replaceGo (varToken k) rep (s ++ renderSegs rest) = s ++ renderSegs (rest.map (passSeg k rep))
      rw [show varToken k = lbrace :: (k.data ++ [rbrace]) from rfl]
      rw [replaceGo_copy lbrace (k.data ++ [rbrace]) rep s (renderSegs rest)
        (braceFree_not_mem_l hsg)]
      rw [show (lbrace :: (k.data ++ [rbrace])) = varToken k from rfl, hrest]
    | tok n =>
      rw [renderSegs_cons, List.map_cons, renderSegs_cons]
      show replaceGo (varToken k) rep (varToken n ++ renderSegs rest)
        = renderSeg (passSeg k rep (.tok n)) ++ renderSegs (rest.map (passSeg k rep))
      rw [replaceGo_token k n rep (renderSegs rest) hk hsg]
      by_cases hkn : k = n
      · subst hkn
        rw [if_pos rfl, hrest]
        simp [passSeg, renderSeg]
      · rw [if_neg hkn, hrest]
        have hnk : ¬(n = k) := fun h => hkn h.symm
        simp [passSeg, renderSeg, hnk]

theorem segGood_passSeg (k : String) (rep : List Char) (hrep : braceFree rep = true)
    (sg : Seg) (h : segGood sg) : segGood (passSeg k rep sg) := by
  cases sg with
  | lit s => exact h
  | tok n =>
    by_cases hnk : n = k
    · simpa [passSeg, hnk, segGood] using hrep
    · simpa [passSeg, hnk, segGood] using h

theorem substSeg_nil (sg : Seg) : substSeg [] sg = sg := by
  cases sg <;> rfl

theorem substSeg_cons (k : String) (v : String) (rest : List (String × String)) (sg : Seg) :
    substSeg ((k, v) :: rest) sg = substSeg rest (passSeg k v.data sg) := by
  cases sg with
  | lit s => rfl
  | tok n =>
    by_cases hnk : n = k
    · simp [substSeg, lookupVar, passSeg, hnk]
    · simp [substSeg, lookupVar, passSeg, hnk]

theorem replace_vars_render :
    ∀ (vm : List (String × String)) (segs : List Seg),
      (∀ kv ∈ vm, braceFree kv.1.data = true ∧ braceFree kv.2.data = true) →
      (∀ sg ∈ segs, segGood sg) →
      replace_prompt_variables (renderSegs segs) vm
        = renderSegs (segs.map (substSeg vm)) := by
  intro vm
  induction vm with
  | nil =>
    intro segs _ _
    show renderSegs segs = renderSegs (segs.map (substSeg []))
    rw [show segs.map (substSeg []) = segs from by
      rw [List.map_congr_left (fun sg _ => substSeg_nil sg)]
      simp]
  | cons kv rest ih =>
    intro segs hvm hsegs
    obtain ⟨k, v⟩ := kv
    have hkv := hvm (k, v) (List.mem_cons_self _ _)
    show replace_prompt_variables (renderSegs segs) ((k, v) :: rest)
      = renderSegs (segs.map (substSeg ((k, v) :: rest)))
    have hstep : replace_prompt_variables (renderSegs segs) ((k, v) :: rest)
        = replace_prompt_variables
            (pyReplace (renderSegs segs) (varToken k) v.data) rest := rfl
    rw [hstep]
    have hpr : pyReplace (renderSegs segs) (varToken k) v.data
        = replaceGo (varToken k) v.data (renderSegs segs) := by
      simp [pyReplace, varToken]
    rw [hpr, replaceGo_render k v.data hkv.1 segs hsegs]
    rw [ih (segs.map (passSeg k v.data))
      (fun kv2 h2 => hvm kv2 (List.mem_cons_of_mem _ h2))
      (by
        intro sg2 h2
        obtain ⟨sg0, h0, rfl⟩ := List.mem_map.mp h2
        exact segGood_passSeg k v.data hkv.2 sg0 (hsegs sg0 h0))]
    rw [List.map_map]
    exact congrArg renderSegs
      (List.map_congr_left (fun sg _ => (substSeg_cons k v rest sg).symm))

/-- C9: on a template made of brace-free literal chunks and placeholder
tokens, with brace-free keys and values, rendering replaces every token
bound in the mapping by its value (first binding) and leaves every unbound
token verbatim in the output — no failure value exists in the embedding, so
no error is possible. -/
theorem c9_substitution_semantics (vm : List (String × String)) (segs : List Seg)
    (hvm : ∀ kv ∈ vm, braceFree kv.1.data = true ∧ braceFree kv.2.data = true)
    (hsegs : ∀ sg ∈ segs, segGood sg) :
    replace_prompt_variables (renderSegs segs) vm = renderSegs (segs.map (substSeg vm))
  ∧ (∀ n, lookupVar n vm = none → substSeg vm (.tok n) = .tok n)
  ∧ (∀ n v, lookupVar n vm = some v → substSeg vm (.tok n) = .lit v.data) := by
  refine ⟨replace_vars_render vm segs hvm hsegs, ?_, ?_⟩
  · intro n h
    simp [substSeg, h]
  · intro n v h
    simp [substSeg, h]

/-- C9 witness: one bound token is replaced, one unbound token is left
verbatim. -/
theorem c9_substitution_semantics_witness :
    replace_prompt_variables
        (renderSegs [Seg.lit ['a', ' '], Seg.tok "x", Seg.lit [' '], Seg.tok "y"])
        [("x", "1")]
      = renderSegs [Seg.lit ['a', ' '], Seg.lit ['1'], Seg.lit [' '], Seg.tok "y"] := by
  have h := (c9_substitution_semantics [("x", "1")]
      [Seg.lit ['a', ' '], Seg.tok "x", Seg.lit [' '], Seg.tok "y"]
      (by
        intro kv hkv
        simp only [List.mem_singleton] at hkv
        subst hkv
        exact ⟨by decide, by decide⟩)
      (by
        intro sg hsg
        simp only [List.mem_cons, List.not_mem_nil, or_false] at hsg
        rcases hsg with rfl | rfl | rfl | rfl
        · show braceFree ['a', ' '] = true; decide
        · show braceFree "x".data = true; decide
        · show braceFree [' '] = true; decide
        · show braceFree "y".data = true; decide)).1
  rw [h]
  decide

/-- C10: substitution is sequential over the mapping in insertion order, so
the transcript value — substituted by the fifth pass — can itself contain a
timezone token that the sixth pass then expands: the rendered output holds
the timezone label value where the transcript held the literal token. -/
theorem c10_sequential_substitution :
    replace_prompt_variables (renderSegs [Seg.lit ['T', ' '], Seg.tok "transcript"])
        (extractPromptVariables "c1" "c2" "c3" "c4"
          (String.mk (['x', ' '] ++ varToken "timezone")) "UTC+8")
      = ['T', ' ', 'x', ' ', 'U', 'T', 'C', '+', '8'] := by
  have hgood0 : ∀ sg ∈ ([Seg.lit ['T', ' '], Seg.tok "transcript"] : List Seg), segGood sg := by
    intro sg hsg
    simp only [List.mem_cons, List.not_mem_nil, or_false] at hsg
    rcases hsg with rfl | rfl
    · show braceFree ['T', ' '] = true; decide
    · show braceFree "transcript".data = true; decide
  have h14 : replace_prompt_variables (renderSegs [Seg.lit ['T', ' '], Seg.tok "transcript"])
      [("current_time_str", "c1"), ("current_time_iso", "c2"),
       ("current_date", "c3"), ("past_30min_str", "c4")]
      = renderSegs [Seg.lit ['T', ' '], Seg.tok "transcript"] := by
    rw [replace_vars_render _ _
      (by
        intro kv hkv
        simp only [List.mem_cons, List.not_mem_nil, or_false] at hkv
        rcases hkv with rfl | rfl | rfl | rfl <;> exact ⟨by decide, by decide⟩)
      hgood0]
    decide
  have h5 : pyReplace (renderSegs [Seg.lit ['T', ' '], Seg.tok "transcript"])
      (varToken "transcript") (String.mk (['x', ' '] ++ varToken "timezone")).data
      = renderSegs [Seg.lit ['T', ' ', 'x', ' '], Seg.tok "timezone"] := by
    rw [show pyReplace (renderSegs [Seg.lit ['T', ' '], Seg.tok "transcript"])
        (varToken "transcript") (String.mk (['x', ' '] ++ varToken "timezone")).data
        = replaceGo (varToken "transcript")
            (String.mk (['x', ' '] ++ varToken "timezone")).data
            (renderSegs [Seg.lit ['T', ' '], Seg.tok "transcript"]) from by
      simp [pyReplace, varToken]]
    rw [replaceGo_render "transcript" _ (by decide) _ hgood0]
    decide
  have h6 : replace_prompt_variables
      (renderSegs [Seg.lit ['T', ' ', 'x', ' '], Seg.tok "timezone"]) [("timezone", "UTC+8")]
      = ['T', ' ', 'x', ' ', 'U', 'T', 'C', '+', '8'] := by
    rw [replace_vars_render _ _
      (by
        intro kv hkv
        simp only [List.mem_singleton] at hkv
        subst hkv
        exact ⟨by decide, by decide⟩)
      (by
        intro sg hsg
        simp only [List.mem_cons, List.not_mem_nil, or_false] at hsg
        rcases hsg with rfl | rfl
        · show braceFree ['T', ' ', 'x', ' '] = true; decide
        · show braceFree "timezone".data = true; decide)]
    decide
  show replace_prompt_variables
      (pyReplace
        (replace_prompt_variables (renderSegs [Seg.lit ['T', ' '], Seg.tok "transcript"])
          [("current_time_str", "c1"), ("current_time_iso", "c2"),
           ("current_date", "c3"), ("past_30min_str", "c4")])
        (varToken "transcript") (String.mk (['x', ' '] ++ varToken "timezone")).data)
      [("timezone", "UTC+8")]
    = ['T', ' ', 'x', ' ', 'U', 'T', 'C', '+', '8']
  rw [h14, h5, h6]

/-- The fenced-code marker characters. -/
def fence3 : List Char := [backtick, backtick, backtick]

/-- A newline followed by the fence marker: the shape whose absence inside a
JSON text makes the fence-stripping passes leave it unchanged (a valid JSON
text cannot contain a raw newline followed by backticks). -/
def fence4 : List Char := '\n' :: fence3

theorem consumeWsNl_nonws_head (c : Char) (t : List Char) (h : isPySpace c = false) :
    consumeWsNl (c :: t) = none := by
  simp [consumeWsNl, h]

theorem consumeWsNl_suffix : ∀ {l r : List Char}, consumeWsNl l = some r → r <:+ l := by
  intro l
  induction l with
  | nil => intro r h; simp [consumeWsNl] at h
  | cons c cs ih =>
    intro r h
    simp only [consumeWsNl] at h
    split at h
    · split at h
      · cases hrec : consumeWsNl cs with
        | none =>
          rw [hrec] at h
          simp only [Option.getD_none, Option.some.injEq] at h
          subst h
          exact List.suffix_cons _ _
        | some r2 =>
          rw [hrec] at h
          simp only [Option.getD_some, Option.some.injEq] at h
          subst h
          exact (ih hrec).trans (List.suffix_cons _ _)
      · exact (ih h).trans (List.suffix_cons _ _)
    · exact absurd h (by simp)

theorem matchOpenFence_none_of_head (x : Char) (l : List Char) (hx : ¬x = backtick) :
    matchOpenFence (x :: l) = none := by
  rw [matchOpenFence.eq_def]
  split
  · rename_i a b c rest2 heq
    rw [if_neg (by rintro ⟨rfl, -⟩; cases heq; exact hx rfl)]
  · rename_i a b c rest heq h2
    rw [if_neg (by rintro ⟨rfl, -⟩; cases h2; exact hx rfl)]
  · rfl

theorem matchOpenFence_none_of_short (x y : Char) (l : List Char) (hy : ¬y = backtick) :
    matchOpenFence (x :: y :: l) = none := by
  rw [matchOpenFence.eq_def]
  split
  · rename_i a b c rest2 heq
    rw [if_neg (by rintro ⟨-, rfl, -⟩; cases heq; exact hy rfl)]
  · rename_i a b c rest heq h2
    rw [if_neg (by rintro ⟨-, rfl, -⟩; cases h2; exact hy rfl)]
  · rfl

theorem matchOpenFence_none_of_third (x y z : Char) (l : List Char) (hz : ¬z = backtick) :
    matchOpenFence (x :: y :: z :: l) = none := by
  rw [matchOpenFence.eq_def]
  split
  · rename_i a b c rest2 heq
    rw [if_neg (by rintro ⟨-, -, rfl⟩; cases heq; exact hz rfl)]
  · rename_i a b c rest heq h2
    rw [if_neg (by rintro ⟨-, -, rfl⟩; cases h2; exact hz rfl)]
  · rfl

/-- No opening-fence match begins inside the first component of the
concatenation, tracking the line-start flag. -/
def noOpen : Bool → List Char → List Char → Prop
  | _, [], _ => True
  | b, c :: cs, rest =>
    (b = true → matchOpenFence ((c :: cs) ++ rest) = none) ∧ noOpen (decide (c = '\n')) cs rest

/-- The line-start flag after scanning a block. -/
def lsAfter (b : Bool) (a : List Char) : Bool :=
  match a.getLast? with
  | some c => decide (c = '\n')
  | none => b

theorem lsAfter_nil (b : Bool) : lsAfter b [] = b := rfl

theorem lsAfter_cons (b : Bool) (x : Char) (xs : List Char) :
    lsAfter b (x :: xs) = lsAfter (decide (x = '\n')) xs := by
  cases xs with
  | nil => rfl
  | cons y ys => rfl

theorem sub1Go_cons_false (c : Char) (cs : List Char) :
    sub1Go false (c :: cs) = c :: sub1Go (decide (c = '\n')) cs := by
  rw [sub1Go]
  simp

theorem sub1Go_cons_nomatch (c : Char) (cs : List Char)
    (h : matchOpenFence (c :: cs) = none) :
    sub1Go true (c :: cs) = c :: sub1Go (decide (c = '\n')) cs := by
  rw [sub1Go]
  rw [if_pos rfl]
  split
  · rename_i rest2 hm
    rw [h] at hm
    cases hm
  · rfl

theorem sub1Go_cons_match (c : Char) (cs rest : List Char)
    (h : matchOpenFence (c :: cs) = some rest) :
    sub1Go true (c :: cs) = sub1Go true rest := by
  rw [sub1Go]
  rw [if_pos rfl]
  split
  · rename_i rest2 hm
    rw [h] at hm
    cases hm
    rfl
  · rename_i hm
    rw [h] at hm
    cases hm

theorem sub1Go_append : ∀ (a : List Char) (b : Bool) (rest : List Char), noOpen b a rest →
    sub1Go b (a ++ rest) = a ++ sub1Go (lsAfter b a) rest := by
  intro a
  induction a with
  | nil => intro b rest _; rw [lsAfter_nil]; rfl
  | cons c cs ih =>
    intro b rest h
    obtain ⟨h1, h2⟩ := h
    rw [List.cons_append, lsAfter_cons]
    cases b with
    | false =>
      rw [sub1Go_cons_false, ih (decide (c = '\n')) rest h2]
      rfl
    | true =>
      rw [sub1Go_cons_nomatch c (cs ++ rest) (h1 rfl), ih (decide (c = '\n')) rest h2]
      rfl

theorem noOpen_of_nobt : ∀ (a : List Char) (b : Bool) (rest : List Char),
    backtick ∉ a → noOpen b a rest := by
  intro a
  induction a with
  | nil => intro b rest _; trivial
  | cons c cs ih =>
    intro b rest hna
    refine ⟨fun _ => ?_, ih (decide (c = '\n')) rest (fun hm => hna (List.mem_cons_of_mem _ hm))⟩
    exact matchOpenFence_none_of_head c (cs ++ rest) (fun hc => hna (by simp [hc]))

theorem containsSeg_cons (p : List Char) (c : Char) (cs : List Char) :
    containsSeg p (c :: cs) = (p.isPrefixOf (c :: cs) || containsSeg p cs) := by
  simp [containsSeg, List.tails_cons]

theorem noOpen_inner : ∀ (s rest : List Char),
    s.getLast? = some ']' → containsSeg fence4 s = false →
    ∀ b : Bool, (b = true → ∀ t, s ≠ backtick :: backtick :: backtick :: t) →
    noOpen b s rest := by
  intro s
  induction s with
  | nil => intro rest _ _ b _; trivial
  | cons c cs ih =>
    intro rest hlast hni b hb
    have hni2 : containsSeg fence4 cs = false := by
      rw [containsSeg_cons] at hni
      exact (Bool.or_eq_false_iff.mp hni).2
    constructor
    · intro hbt
      have hstart := hb hbt
      cases cs with
      | nil =>
        have hc : c = ']' := by simpa using hlast
        exact matchOpenFence_none_of_head c rest (by rw [hc]; decide)
      | cons d ds =>
        cases ds with
        | nil =>
          have hd : d = ']' := by simpa using hlast
          exact matchOpenFence_none_of_short c d rest (by rw [hd]; decide)
        | cons e es =>
          by_cases hc : c = backtick
          · by_cases hdd : d = backtick
            · by_cases he : e = backtick
              · exact absurd (by rw [hc, hdd, he]) (hstart es)
              · exact matchOpenFence_none_of_third c d e (es ++ rest) he
            · exact matchOpenFence_none_of_short c d (e :: es ++ rest) hdd
          · exact matchOpenFence_none_of_head c (d :: e :: es ++ rest) hc
    · cases cs with
      | nil => trivial
      | cons d ds =>
        refine ih rest (by rwa [List.getLast?_cons_cons] at hlast) hni2
          (decide (c = '\n')) ?_
        intro hcn t hshape
        have hcn2 : c = '\n' := of_decide_eq_true hcn
        rw [containsSeg_cons] at hni
        have h1 : fence4.isPrefixOf (c :: d :: ds) = false := (Bool.or_eq_false_iff.mp hni).1
        rw [hcn2, hshape] at h1
        have h2 : fence4.isPrefixOf ('\n' :: backtick :: backtick :: backtick :: t) = true := by
          simp [fence4, fence3, List.isPrefixOf]
        rw [h2] at h1
        cases h1

theorem matchCloseFence_none_of_head (x : Char) (l : List Char) (hx : ¬x = '\n') :
    matchCloseFence (x :: l) = none := by
  rw [matchCloseFence.eq_def]
  split
  · rename_i n a b c rest heq
    rw [if_neg (by rintro ⟨rfl, -⟩; cases heq; exact hx rfl)]
  · rfl

theorem matchCloseFence_none_of_second (x y : Char) (l : List Char) (hy : ¬y = backtick) :
    matchCloseFence (x :: y :: l) = none := by
  rw [matchCloseFence.eq_def]
  split
  · rename_i n a b c rest heq
    rw [if_neg (by rintro ⟨-, rfl, -⟩; cases heq; exact hy rfl)]
  · rfl

theorem matchCloseFence_none_of_third (x y z : Char) (l : List Char) (hz : ¬z = backtick) :
    matchCloseFence (x :: y :: z :: l) = none := by
  rw [matchCloseFence.eq_def]
  split
  · rename_i n a b c rest heq
    rw [if_neg (by rintro ⟨-, -, rfl, -⟩; cases heq; exact hz rfl)]
  · rfl

theorem matchCloseFence_none_of_fourth (x y z w : Char) (l : List Char) (hw : ¬w = backtick) :
    matchCloseFence (x :: y :: z :: w :: l) = none := by
  show (if x = '\n' ∧ y = backtick ∧ z = backtick ∧ w = backtick
      then consumeWsDollar l else none) = none
  rw [if_neg (by rintro ⟨-, -, -, rfl⟩; exact hw rfl)]

/-- No closing-fence match begins inside the first component of the
concatenation. -/
def noClose : List Char → List Char → Prop
  | [], _ => True
  | c :: cs, rest => matchCloseFence ((c :: cs) ++ rest) = none ∧ noClose cs rest

theorem sub1Go_nil (b : Bool) : sub1Go b [] = [] := by
  rw [sub1Go]

theorem sub2Go_nil : sub2Go [] = [] := by
  rw [sub2Go]

theorem sub2Go_cons_nomatch (c : Char) (cs : List Char)
    (h : matchCloseFence (c :: cs) = none) : sub2Go (c :: cs) = c :: sub2Go cs := by
  rw [sub2Go]
  split
  · rename_i rest2 hm
    rw [h] at hm
    cases hm
  · rfl

theorem sub2Go_cons_match (c : Char) (cs rest : List Char)
    (h : matchCloseFence (c :: cs) = some rest) : sub2Go (c :: cs) = sub2Go rest := by
  rw [sub2Go]
  split
  · rename_i rest2 hm
    rw [h] at hm
    cases hm
    rfl
  · rename_i hm
    rw [h] at hm
    cases hm

theorem sub2Go_append : ∀ (a rest : List Char), noClose a rest →
    sub2Go (a ++ rest) = a ++ sub2Go rest := by
  intro a
  induction a with
  | nil => intro rest _; rfl
  | cons c cs ih =>
    intro rest h
    obtain ⟨h1, h2⟩ := h
    rw [List.cons_append, sub2Go_cons_nomatch c (cs ++ rest) h1, ih rest h2]
    rfl

theorem sub1Go_of_nobt (b : Bool) (l : List Char) (h : backtick ∉ l) : sub1Go b l = l := by
  have h2 := sub1Go_append l b [] (noOpen_of_nobt l b [] h)
  rw [List.append_nil, sub1Go_nil, List.append_nil] at h2
  exact h2

theorem noClose_of_nobt : ∀ (a rest : List Char), backtick ∉ a →
    (∀ x t, rest = x :: t → ¬x = backtick) → noClose a rest := by
  intro a
  induction a with
  | nil => intro rest _ _; trivial
  | cons c cs ih =>
    intro rest ha hr
    refine ⟨?_, ih rest (fun hm => ha (List.mem_cons_of_mem _ hm)) hr⟩
    cases cs with
    | nil =>
      cases rest with
      | nil => rfl
      | cons x t => exact matchCloseFence_none_of_second c x t (hr x t rfl)
    | cons d ds =>
      exact matchCloseFence_none_of_second c d (ds ++ rest)
        (fun hd => ha (by simp [hd]))

theorem sub2Go_of_nobt (l : List Char) (h : backtick ∉ l) : sub2Go l = l := by
  have h2 := sub2Go_append l [] (noClose_of_nobt l [] h (by intro x t hxt; cases hxt))
  rw [List.append_nil, sub2Go_nil, List.append_nil] at h2
  exact h2

theorem noClose_inner : ∀ (s rest : List Char),
    s.getLast? = some ']' → containsSeg fence4 s = false → noClose s rest := by
  intro s
  induction s with
  | nil => intro rest _ _; trivial
  | cons c cs ih =>
    intro rest hlast hni
    have hni2 : containsSeg fence4 cs = false := by
      rw [containsSeg_cons] at hni
      exact (Bool.or_eq_false_iff.mp hni).2
    constructor
    · cases cs with
      | nil =>
        have hc : c = ']' := by simpa using hlast
        exact matchCloseFence_none_of_head c rest (by rw [hc]; decide)
      | cons d ds =>
        cases ds with
        | nil =>
          have hd : d = ']' := by simpa using hlast
          exact matchCloseFence_none_of_second c d rest (by rw [hd]; decide)
        | cons e es =>
          cases es with
          | nil =>
            have he : e = ']' := by
              rw [List.getLast?_cons_cons, List.getLast?_cons_cons] at hlast
              simpa using hlast
            exact matchCloseFence_none_of_third c d e rest (by rw [he]; decide)
          | cons f fs =>
            by_cases hc : c = '\n'
            · by_cases hd : d = backtick
              · by_cases he : e = backtick
                · by_cases hf : f = backtick
                  · exfalso
                    rw [containsSeg_cons] at hni
                    have h1 := (Bool.or_eq_false_iff.mp hni).1
                    rw [hc, hd, he, hf] at h1
                    have h2 : fence4.isPrefixOf
                        ('\n' :: backtick :: backtick :: backtick :: fs) = true := by
                      simp [fence4, fence3, List.isPrefixOf]
                    rw [h2] at h1
                    cases h1
                  · exact matchCloseFence_none_of_fourth c d e f (fs ++ rest) hf
                · exact matchCloseFence_none_of_third c d e (f :: fs ++ rest) he
              · exact matchCloseFence_none_of_second c d (e :: f :: fs ++ rest) hd
            · exact matchCloseFence_none_of_head c (d :: e :: f :: fs ++ rest) hc
    · cases cs with
      | nil => trivial
      | cons d ds =>
        exact ih rest (by rwa [List.getLast?_cons_cons] at hlast) hni2

theorem consumeWsNl_newline_nonws (c0 : Char) (t0 : List Char) (hc0 : isPySpace c0 = false) :
    consumeWsNl ('\n' :: c0 :: t0) = some (c0 :: t0) := by
  rw [consumeWsNl]
  rw [if_pos (by decide), if_pos rfl, consumeWsNl_nonws_head c0 t0 hc0]
  rfl

theorem matchOpenFence_marker (tagOpt : List Char)
    (htag : tagOpt = [] ∨ tagOpt = ['j', 's', 'o', 'n'])
    (c0 : Char) (t0 : List Char) (hc0 : isPySpace c0 = false) :
    matchOpenFence (fence3 ++ tagOpt ++ '\n' :: c0 :: t0) = some (c0 :: t0) := by
  have hws := consumeWsNl_newline_nonws c0 t0 hc0
  rcases htag with rfl | rfl
  · show matchOpenFence (backtick :: backtick :: backtick :: '\n' :: c0 :: t0) = some (c0 :: t0)
    rw [show matchOpenFence (backtick :: backtick :: backtick :: '\n' :: c0 :: t0)
        = if backtick = backtick ∧ backtick = backtick ∧ backtick = backtick
          then consumeWsNl ('\n' :: c0 :: t0) else none from rfl]
    rw [if_pos ⟨rfl, rfl, rfl⟩, hws]
  · show matchOpenFence
        (backtick :: backtick :: backtick :: 'j' :: 's' :: 'o' :: 'n' :: '\n' :: c0 :: t0)
      = some (c0 :: t0)
    rw [show matchOpenFence
        (backtick :: backtick :: backtick :: 'j' :: 's' :: 'o' :: 'n' :: '\n' :: c0 :: t0)
        = if backtick = backtick ∧ backtick = backtick ∧ backtick = backtick
          then (match consumeWsNl ('\n' :: c0 :: t0) with
                | some r => some r
                | none => consumeWsNl ('j' :: 's' :: 'o' :: 'n' :: '\n' :: c0 :: t0))
          else none from rfl]
    rw [if_pos ⟨rfl, rfl, rfl⟩, hws]

theorem dropWhile_append_inner (p : Char → Bool) (u v : List Char)
    (hv : ∃ c t, v = c :: t ∧ p c = false) :
    (u ++ v).dropWhile p = u.dropWhile p ++ v := by
  obtain ⟨c, t, rfl, hc⟩ := hv
  rw [List.dropWhile_append]
  split
  · rename_i hemp
    rw [List.isEmpty_iff] at hemp
    rw [hemp, List.dropWhile_cons_of_neg (by simp [hc]), List.nil_append]
  · rfl

theorem slen_ge_two (s t0 : List Char) (hs : s = '[' :: t0) (hlast : s.getLast? = some ']') :
    2 ≤ s.length := by
  subst hs
  cases t0 with
  | nil => simp at hlast
  | cons a l => simp [Nat.succ_le_succ, Nat.succ_le_of_lt]

theorem reverse_head_of_getLast (s : List Char) (hlast : s.getLast? = some ']') :
    ∃ rs, s.reverse = ']' :: rs := by
  have h := List.head?_reverse s
  rw [hlast] at h
  cases hrev : s.reverse with
  | nil => rw [hrev] at h; cases h
  | cons a as =>
    rw [hrev] at h
    simp only [List.head?_cons, Option.some.injEq] at h
    exact ⟨as, by rw [h]⟩

theorem pyStrip_shape (u s w : List Char) (t0 : List Char) (hs : s = '[' :: t0)
    (hlast : s.getLast? = some ']') :
    pyStrip (u ++ s ++ w)
      = u.dropWhile isPySpace ++ s ++ (w.reverse.dropWhile isPySpace).reverse := by
  obtain ⟨rs, hrev⟩ := reverse_head_of_getLast s hlast
  unfold pyStrip
  have hL : (u ++ s ++ w).dropWhile isPySpace = u.dropWhile isPySpace ++ (s ++ w) := by
    rw [List.append_assoc]
    exact dropWhile_append_inner _ u (s ++ w) ⟨'[', t0 ++ w, by rw [hs]; simp, by decide⟩
  rw [hL]
  have hR : (u.dropWhile isPySpace ++ (s ++ w)).reverse
      = w.reverse ++ (s.reverse ++ (u.dropWhile isPySpace).reverse) := by
    simp [List.reverse_append]
  rw [hR]
  have hL2 : (w.reverse ++ (s.reverse ++ (u.dropWhile isPySpace).reverse)).dropWhile isPySpace
      = w.reverse.dropWhile isPySpace ++ (s.reverse ++ (u.dropWhile isPySpace).reverse) := by
    refine dropWhile_append_inner _ _ _
      ⟨']', rs ++ (u.dropWhile isPySpace).reverse, ?_, by decide⟩
    rw [hrev]
    simp
  rw [hL2]
  simp [List.reverse_append, List.append_assoc]

theorem findIdx_bracket (u s w : List Char) (t0 : List Char) (hs : s = '[' :: t0)
    (hu : '[' ∉ u) :
    (u ++ s ++ w).findIdx? (· = '[') = some u.length := by
  rw [List.append_assoc, List.findIdx?_append]
  have hnone : u.findIdx? (· = '[') = none :=
    List.findIdx?_eq_none_iff.mpr (fun x hx => by
      simp only [decide_eq_false_iff_not]
      rintro rfl
      exact hu hx)
  rw [hnone]
  have hsome : (s ++ w).findIdx? (· = '[') = some 0 := by
    rw [hs, List.cons_append, List.findIdx?_cons]
    simp
  rw [hsome]
  simp [Option.or]

theorem rfind_bracket (u s w : List Char) (hlast : s.getLast? = some ']') (hw : ']' ∉ w) :
    rfindIdx (· = ']') (u ++ s ++ w) = some (u.length + s.length - 1) := by
  obtain ⟨rs, hrev⟩ := reverse_head_of_getLast s hlast
  unfold rfindIdx
  have hzrev : (u ++ s ++ w).reverse = w.reverse ++ (s.reverse ++ u.reverse) := by
    simp [List.reverse_append]
  rw [hzrev, List.findIdx?_append]
  have h1 : w.reverse.findIdx? (· = ']') = none :=
    List.findIdx?_eq_none_iff.mpr (fun x hx => by
      simp only [decide_eq_false_iff_not]
      rintro rfl
      exact hw (List.mem_reverse.mp hx))
  rw [h1]
  have h2 : (s.reverse ++ u.reverse).findIdx? (· = ']') = some 0 := by
    rw [hrev, List.cons_append, List.findIdx?_cons]
    simp
  rw [h2]
  have hslen : 1 ≤ s.length := by
    cases hsr : s with
    | nil => rw [hsr] at hlast; cases hlast
    | cons a l => simp
  simp only [Option.map_some', Option.none_or]
  simp only [List.length_append, List.length_reverse, Nat.zero_add]
  congr 1
  omega

theorem clean_json_content_eq_of_subs (z u2 w2 s t0 : List Char)
    (hsub : sub2Go (sub1Go true z) = u2 ++ s ++ w2)
    (hs : s = '[' :: t0) (hlast : s.getLast? = some ']')
    (hu : '[' ∉ u2) (hw : ']' ∉ w2) :
    clean_json_content z = s := by
  have hu2 : '[' ∉ u2.dropWhile isPySpace :=
    fun hm => hu ((List.dropWhile_suffix _).subset hm)
  have hw2 : ']' ∉ (w2.reverse.dropWhile isPySpace).reverse := by
    intro hm
    exact hw (List.mem_reverse.mp ((List.dropWhile_suffix _).subset (List.mem_reverse.mp hm)))
  have hs2 : 2 ≤ s.length := slen_ge_two s t0 hs hlast
  simp only [clean_json_content]
  rw [hsub, pyStrip_shape u2 s w2 t0 hs hlast]
  rw [findIdx_bracket _ s _ t0 hs hu2, rfind_bracket _ s _ hlast hw2]
  show (if (u2.dropWhile isPySpace).length < (u2.dropWhile isPySpace).length + s.length - 1
      then (((u2.dropWhile isPySpace ++ s ++ (w2.reverse.dropWhile isPySpace).reverse).take
              ((u2.dropWhile isPySpace).length + s.length - 1 + 1)).drop
            (u2.dropWhile isPySpace).length)
      else u2.dropWhile isPySpace ++ s ++ (w2.reverse.dropWhile isPySpace).reverse) = s
  rw [if_pos (by omega)]
  have hlen : (u2.dropWhile isPySpace).length + s.length - 1 + 1
      = (u2.dropWhile isPySpace ++ s).length := by
    simp only [List.length_append]
    omega
  rw [hlen, List.take_left (u2.dropWhile isPySpace ++ s) _, List.drop_left _ s]

theorem lsAfter_true_of (pre : List Char) (h : pre = [] ∨ pre.getLast? = some '\n') :
    lsAfter true pre = true := by
  rcases h with rfl | h
  · rfl
  · unfold lsAfter
    rw [h]
    simp

theorem lsAfter_false_of_last (s : List Char) (b : Bool) (h : s.getLast? = some ']') :
    lsAfter b s = false := by
  unfold lsAfter
  rw [h]
  simp

theorem decide_bt_nl : (decide (backtick = '\n')) = false := by decide

theorem matchOpenFence_fence3_nil : matchOpenFence fence3 = none := by
  show (if backtick = backtick ∧ backtick = backtick ∧ backtick = backtick
      then consumeWsNl [] else none) = none
  rw [if_pos ⟨rfl, rfl, rfl⟩]
  rfl

theorem sub1Go_fence3_nil : sub1Go true fence3 = fence3 := by
  show sub1Go true (backtick :: [backtick, backtick]) = fence3
  rw [sub1Go_cons_nomatch backtick [backtick, backtick] matchOpenFence_fence3_nil]
  rw [decide_bt_nl, sub1Go_cons_false, decide_bt_nl, sub1Go_cons_false, decide_bt_nl,
    sub1Go_nil]
  rfl

theorem matchOpenFence_fence3_nl (p2 : List Char) :
    matchOpenFence (fence3 ++ '\n' :: p2) = some ((consumeWsNl p2).getD p2) := by
  show (if backtick = backtick ∧ backtick = backtick ∧ backtick = backtick
      then consumeWsNl ('\n' :: p2) else none) = some ((consumeWsNl p2).getD p2)
  rw [if_pos ⟨rfl, rfl, rfl⟩, consumeWsNl]
  rw [if_pos (by decide), if_pos rfl]

theorem matchCloseFence_fence4 : matchCloseFence fence4 = some [] := by
  show (if '\n' = '\n' ∧ backtick = backtick ∧ backtick = backtick ∧ backtick = backtick
      then consumeWsDollar [] else none) = some []
  rw [if_pos ⟨rfl, rfl, rfl, rfl⟩]
  rfl

theorem sub2Go_fence4 : sub2Go fence4 = [] := by
  show sub2Go ('\n' :: fence3) = []
  rw [sub2Go_cons_match '\n' fence3 [] matchCloseFence_fence4, sub2Go_nil]

theorem subs_wrapped (pre tagOpt s t0 post : List Char)
    (hpre_nl : pre = [] ∨ pre.getLast? = some '\n')
    (hpre_bt : backtick ∉ pre)
    (htag : tagOpt = [] ∨ tagOpt = ['j', 's', 'o', 'n'])
    (hs : s = '[' :: t0) (hlast : s.getLast? = some ']')
    (hni : containsSeg fence4 s = false)
    (hpost : post = [] ∨ ∃ p2, post = '\n' :: p2 ∧ backtick ∉ p2 ∧ ']' ∉ p2) :
    ∃ w2 : List Char, ']' ∉ w2 ∧
      sub2Go (sub1Go true
          (pre ++ (fence3 ++ (tagOpt ++ '\n' :: (s ++ ('\n' :: (fence3 ++ post)))))))
        = pre ++ (s ++ w2) := by
  have hsx : ∀ X : List Char, s ++ X = '[' :: (t0 ++ X) := by
    intro X
    rw [hs, List.cons_append]
  have h1 : sub1Go true
      (pre ++ (fence3 ++ (tagOpt ++ '\n' :: (s ++ ('\n' :: (fence3 ++ post))))))
      = pre ++ sub1Go true (fence3 ++ (tagOpt ++ '\n' :: (s ++ ('\n' :: (fence3 ++ post))))) := by
    rw [sub1Go_append pre true _ (noOpen_of_nobt pre true _ hpre_bt),
      lsAfter_true_of pre hpre_nl]
  have hmo : matchOpenFence (fence3 ++ (tagOpt ++ '\n' :: (s ++ ('\n' :: (fence3 ++ post)))))
      = some (s ++ ('\n' :: (fence3 ++ post))) := by
    have hm := matchOpenFence_marker tagOpt htag '[' (t0 ++ ('\n' :: (fence3 ++ post)))
      (by decide)
    rw [hsx ('\n' :: (fence3 ++ post))]
    exact hm
  have h2 : sub1Go true (fence3 ++ (tagOpt ++ '\n' :: (s ++ ('\n' :: (fence3 ++ post)))))
      = sub1Go true (s ++ ('\n' :: (fence3 ++ post))) :=
    sub1Go_cons_match backtick
      (backtick :: backtick :: (tagOpt ++ '\n' :: (s ++ ('\n' :: (fence3 ++ post))))) _ hmo
  have hnoinner : noOpen true s ('\n' :: (fence3 ++ post)) :=
    noOpen_inner s _ hlast hni true (fun _ t ht => by
      rw [hs] at ht
      injection ht with hh _
      exact absurd hh (by decide))
  have h3 : sub1Go true (s ++ ('\n' :: (fence3 ++ post)))
      = s ++ sub1Go false ('\n' :: (fence3 ++ post)) := by
    rw [sub1Go_append s true _ hnoinner, lsAfter_false_of_last s true hlast]
  have h4 : sub1Go false ('\n' :: (fence3 ++ post)) = '\n' :: sub1Go true (fence3 ++ post) := by
    rw [sub1Go_cons_false, show (decide ('\n' = '\n')) = true from by decide]
  have hnc_pre : ∀ X : List Char, noClose pre (s ++ X) := by
    intro X
    refine noClose_of_nobt pre _ hpre_bt ?_
    intro x t hxt
    rw [hsx X] at hxt
    injection hxt with hx _
    rw [← hx]
    decide
  have hnc_s : ∀ X : List Char, noClose s X := fun X => noClose_inner s X hlast hni
  rcases hpost with rfl | ⟨p2, rfl, hp2bt, hp2rb⟩
  · have h5 : sub1Go true (fence3 ++ []) = fence3 := by
      rw [List.append_nil, sub1Go_fence3_nil]
    have hsub1 : sub1Go true
        (pre ++ (fence3 ++ (tagOpt ++ '\n' :: (s ++ ('\n' :: (fence3 ++ []))))))
        = pre ++ (s ++ ('\n' :: fence3)) := by
      rw [h1, h2, h3, h4, h5]
    have hsub2 : sub2Go (pre ++ (s ++ ('\n' :: fence3))) = pre ++ (s ++ []) := by
      rw [sub2Go_append pre _ (hnc_pre ('\n' :: fence3)),
        sub2Go_append s _ (hnc_s ('\n' :: fence3)),
        show ('\n' :: fence3) = fence4 from rfl, sub2Go_fence4]
    exact ⟨[], by simp, by rw [hsub1, hsub2]⟩
  · have hr_suffix : (consumeWsNl p2).getD p2 <:+ p2 := by
      cases hc : consumeWsNl p2 with
      | none => simp
      | some r2 => simpa using consumeWsNl_suffix hc
    have hrbt : backtick ∉ (consumeWsNl p2).getD p2 := fun hm => hp2bt (hr_suffix.subset hm)
    have hrrb : ']' ∉ (consumeWsNl p2).getD p2 := fun hm => hp2rb (hr_suffix.subset hm)
    have h5a : sub1Go true (fence3 ++ '\n' :: p2) = sub1Go true ((consumeWsNl p2).getD p2) :=
      sub1Go_cons_match backtick (backtick :: backtick :: '\n' :: p2) _
        (matchOpenFence_fence3_nl p2)
    have h5 : sub1Go true (fence3 ++ '\n' :: p2) = (consumeWsNl p2).getD p2 := by
      rw [h5a, sub1Go_of_nobt true _ hrbt]
    have hsub1 : sub1Go true
        (pre ++ (fence3 ++ (tagOpt ++ '\n' :: (s ++ ('\n' :: (fence3 ++ '\n' :: p2))))))
        = pre ++ (s ++ ('\n' :: (consumeWsNl p2).getD p2)) := by
      rw [h1, h2, h3, h4, h5]
    have hsub2 : sub2Go (pre ++ (s ++ ('\n' :: (consumeWsNl p2).getD p2)))
        = pre ++ (s ++ ('\n' :: (consumeWsNl p2).getD p2)) := by
      rw [sub2Go_append pre _ (hnc_pre ('\n' :: (consumeWsNl p2).getD p2)),
        sub2Go_append s _ (hnc_s ('\n' :: (consumeWsNl p2).getD p2)),
        sub2Go_of_nobt ('\n' :: (consumeWsNl p2).getD p2) (by
          intro hm
          rcases List.mem_cons.mp hm with hm1 | hm2
          · exact absurd hm1.symm (by decide)
          · exact hrbt hm2)]
    refine ⟨'\n' :: (consumeWsNl p2).getD p2, ?_, by rw [hsub1, hsub2]⟩
    intro hm
    rcases List.mem_cons.mp hm with hm1 | hm2
    · exact absurd hm1 (by decide)
    · exact hrrb hm2

/-- C8: wrapping a JSON-array text in fenced-code markup — optional prose
ending at a line boundary before an opening marker (bare or json-tagged), a
newline, the array text, then a newline, a closing marker and optional
trailing prose — sanitizes to exactly the array text itself, which also
sanitizes to itself bare; hence parsing the sanitized forms yields the same
record sequence.  The side conditions hold for every JSON text (a JSON text
cannot contain a raw newline followed by a fence, starts at its first
opening bracket, ends at its last closing bracket) and formalize prose lying
outside the bracket span. -/
theorem c8_fenced_markup_invariance (pre tagOpt s t0 post : List Char)
    (hs : s = '[' :: t0) (hlast : s.getLast? = some ']')
    (hni : containsSeg fence4 s = false)
    (htag : tagOpt = [] ∨ tagOpt = ['j', 's', 'o', 'n'])
    (hpre_nl : pre = [] ∨ pre.getLast? = some '\n')
    (hpre_bt : backtick ∉ pre) (hpre_br : '[' ∉ pre)
    (hpost : post = [] ∨ ∃ p2, post = '\n' :: p2 ∧ backtick ∉ p2 ∧ ']' ∉ p2) :
    clean_json_content (pre ++ fence3 ++ tagOpt ++ ['\n'] ++ s ++ ['\n'] ++ fence3 ++ post)
      = clean_json_content s
  ∧ clean_json_content s = s := by
  have hplain : sub2Go (sub1Go true s) = [] ++ s ++ [] := by
    have hno := noOpen_inner s [] hlast hni true (fun _ t ht => by
      rw [hs] at ht
      injection ht with hh _
      exact absurd hh (by decide))
    have h1 := sub1Go_append s true [] hno
    rw [List.append_nil, sub1Go_nil, List.append_nil] at h1
    have h2 := sub2Go_append s [] (noClose_inner s [] hlast hni)
    rw [List.append_nil, sub2Go_nil, List.append_nil] at h2
    rw [h1, h2]
    simp
  have hcs : clean_json_content s = s :=
    clean_json_content_eq_of_subs s [] [] s t0 hplain hs hlast (by simp) (by simp)
  obtain ⟨w2, hw2, hsub⟩ :=
    subs_wrapped pre tagOpt s t0 post hpre_nl hpre_bt htag hs hlast hni hpost
  have hshape : pre ++ fence3 ++ tagOpt ++ ['\n'] ++ s ++ ['\n'] ++ fence3 ++ post
      = pre ++ (fence3 ++ (tagOpt ++ '\n' :: (s ++ ('\n' :: (fence3 ++ post))))) := by
    simp [List.append_assoc]
  have hsub2 : sub2Go (sub1Go true
      (pre ++ (fence3 ++ (tagOpt ++ '\n' :: (s ++ ('\n' :: (fence3 ++ post)))))))
      = pre ++ s ++ w2 := by
    rw [List.append_assoc]
    exact hsub
  have hcw : clean_json_content
      (pre ++ (fence3 ++ (tagOpt ++ '\n' :: (s ++ ('\n' :: (fence3 ++ post)))))) = s :=
    clean_json_content_eq_of_subs _ pre w2 s t0 hsub2 hs hlast hpre_br hw2
  constructor
  · rw [hshape, hcw, hcs]
  · exact hcs

/-- C8 witness: the spec example shape — a json-tagged fenced block around
a small array — sanitizes exactly as the bare array does. -/
theorem c8_fenced_markup_invariance_witness :
    clean_json_content
        ([] ++ fence3 ++ ['j', 's', 'o', 'n'] ++ ['\n'] ++ ['[', '1', ']']
          ++ ['\n'] ++ fence3 ++ [])
      = clean_json_content ['[', '1', ']']
  ∧ clean_json_content ['[', '1', ']'] = ['[', '1', ']'] :=
  c8_fenced_markup_invariance [] ['j', 's', 'o', 'n'] ['[', '1', ']'] ['1', ']'] []
    rfl (by decide) (by decide) (Or.inr rfl) (Or.inl rfl) (by simp) (by simp) (Or.inl rfl)
